import Mathlib

/-!
Verification development for the repository-analysis pipeline of the
free-backend-hosting project.  The Lean definitions below are shallow
embeddings of the Python sources:

* `src/utils/validators.py`   — `validate_github_url`, `extract_repo_name`
* `src/services/app_detector.py` — `FastAPIDetector`
* `src/services/git_clone.py` — `GitHubRepoHandler`
* `src/services/deployer.py`  — `DeploymentService.deploy_repository`

File contents, environment-variable maps and URLs are modelled as `List Char`.
External effects (HTTP requests, the git subprocess, `tempfile.mkdtemp`,
`os.walk`, reading the chosen entry file, `ast.parse`) are supplied by an
oracle record `Env`; the mutable world (network-call counter, set of existing
temporary directories, the handler's `self.temp_dir` field) is an explicit
state `St` threaded through the handler operations.
-/

namespace FBH

/-- Python `\s` for the ASCII range that the scanned sources use. -/
def isPySpace (c : Char) : Bool :=
  c = ' ' || c = '\t' || c = '\n' || c = '\r' || c = '\x0b' || c = '\x0c'

/-- Python `\w` restricted to ASCII: letters, digits, underscore. -/
def isWordChar (c : Char) : Bool :=
  c.isAlpha || c.isDigit || c = '_'

/-- The character class `[\w\-\.]` of the GitHub URL regular expression. -/
def isRepoChar (c : Char) : Bool :=
  isWordChar c || c = '-' || c = '.'

/-- Character comparison used by the pattern matcher; `ci` selects the
`re.IGNORECASE` behaviour (ASCII lowercase folding). -/
def chEq (ci : Bool) (p c : Char) : Bool :=
  if ci then decide (p.toLower = c.toLower) else decide (p = c)

/-- One primitive of the regular expressions appearing in the sources. -/
inductive RItem
  | lit (ci : Bool) (cs : List Char)  -- a literal, optionally case-insensitive
  | wsStar                            -- `\s*`
  | wsPlus                            -- `\s+`
  | dotStar                           -- `.*` (anything but a newline)
  | whdPlus                           -- `[\w\-\.]+`
  | optChar (c : Char)                -- `c?`
  | endA                              -- `$`
deriving DecidableEq

/-- Consume a literal from the front of `s`; returns the rest on success. -/
def litM (ci : Bool) : List Char → List Char → Option (List Char)
  | [], s => some s
  | _ :: _, [] => none
  | p :: ps, c :: cs => if chEq ci p c then litM ci ps cs else none

/-- All suffixes of `s` reachable by deleting a (possibly empty) prefix of
characters satisfying `keep`, in order of increasing consumption. -/
def clsTails (keep : Char → Bool) : List Char → List (List Char)
  | [] => [[]]
  | c :: cs => (c :: cs) :: (if keep c then clsTails keep cs else [])

/-- Does the item sequence match a prefix of `s` (the full string when the
sequence ends with `endA`)?  Star/plus items enumerate every split point,
which coincides with Python's backtracking semantics for these patterns. -/
def matchItems : List RItem → List Char → Bool
  | [], _ => true
  | .lit ci cs :: rest, s =>
      match litM ci cs s with
      | some r => matchItems rest r
      | none => false
  | .wsStar :: rest, s => (clsTails isPySpace s).any (fun r => matchItems rest r)
  | .wsPlus :: rest, s =>
      match s with
      | [] => false
      | c :: cs => isPySpace c && (clsTails isPySpace cs).any (fun r => matchItems rest r)
  | .dotStar :: rest, s =>
      (clsTails (fun c => decide (c ≠ '\n')) s).any (fun r => matchItems rest r)
  | .whdPlus :: rest, s =>
      match s with
      | [] => false
      | c :: cs => isRepoChar c && (clsTails isRepoChar cs).any (fun r => matchItems rest r)
  | .optChar ch :: rest, s =>
      matchItems rest s ||
        (match s with
         | c :: cs => decide (c = ch) && matchItems rest cs
         | [] => false)
  | .endA :: rest, s => s.isEmpty && matchItems rest s

/-- `re.search`: try the pattern at every start position. -/
def searchItems (items : List RItem) : List Char → Bool
  | [] => matchItems items []
  | c :: cs => matchItems items (c :: cs) || searchItems items cs

/-- Python's substring test `pat in s`. -/
def containsSub (pat s : List Char) : Bool :=
  searchItems [.lit false pat] s

/-- Items containing no end anchor (all patterns searched by the detector). -/
def noAnchor (items : List RItem) : Bool :=
  items.all (fun i => match i with | .endA => false | _ => true)

/-- Python `str.startswith`. -/
def startsWithL (s pre : List Char) : Bool :=
  decide (s.take pre.length = pre)

/-- Python `str.endswith`. -/
def endsWithL (s suf : List Char) : Bool :=
  decide (suf.length ≤ s.length) && decide (s.drop (s.length - suf.length) = suf)

/-- Python `str.split(sep)` for a one-character separator. -/
def splitOnChar (sep : Char) : List Char → List (List Char)
  | [] => [[]]
  | c :: cs =>
      let r := splitOnChar sep cs
      if c = sep then [] :: r
      else
        match r with
        | h :: t => (c :: h) :: t
        | [] => [[c]]

/-- Python `str.rstrip('/')`. -/
def rstripSlash (s : List Char) : List Char :=
  (s.reverse.dropWhile (fun c => decide (c = '/'))).reverse

/-- Python `str.strip('/')`. -/
def stripSlashes (s : List Char) : List Char :=
  rstripSlash (s.dropWhile (fun c => decide (c = '/')))

/-!  ### `src/services/app_detector.py` — `FastAPIDetector`  -/

/-- One instance-construction pattern `v\s*=\s*FastAPI\(` (IGNORECASE). -/
def appPatternItems (v : String) : List RItem :=
  [.lit true v.toList, .wsStar, .lit true ['='], .wsStar, .lit true ("FastAPI(").toList]

/-- `self.app_patterns` of `FastAPIDetector.__init__`. -/
def app_patterns : List (List RItem) :=
  [appPatternItems "app", appPatternItems "application", appPatternItems "api",
   appPatternItems "server", appPatternItems "fastapi_app"]

/-- `self.import_patterns` of `FastAPIDetector.__init__` (IGNORECASE). -/
def import_patterns : List (List RItem) :=
  [ [.lit true ("from").toList, .wsPlus, .lit true ("fastapi").toList, .wsPlus,
     .lit true ("import").toList, .wsPlus, .lit true ("FastAPI").toList],
    [.lit true ("import").toList, .wsPlus, .lit true ("fastapi").toList],
    [.lit true ("from").toList, .wsPlus, .lit true ("fastapi").toList, .wsPlus,
     .lit true ("import").toList, .wsPlus, .dotStar, .lit true ("FastAPI").toList] ]

/-- Result record of `FastAPIDetector.analyze_python_file`.  The Python code
stores the regex text of each matching pattern in `imports` and the matched
substrings in `app_instances`; downstream code only tests these lists for
emptiness, so we record the matching patterns themselves. -/
structure AnalyzeResult where
  has_fastapi : Bool
  app_instances : List (List RItem)
  matchedImports : List (List RItem)
  confidence : Nat
deriving DecidableEq

/-- Loop body of the import-pattern loop (`confidence += 30`). -/
def importStep (c : List Char) (r : AnalyzeResult) (p : List RItem) : AnalyzeResult :=
  if searchItems p c then
    { r with has_fastapi := true, matchedImports := r.matchedImports ++ [p],
             confidence := r.confidence + 30 }
  else r

/-- Loop body of the instance-pattern loop (`confidence += 40`); the Python
`re.findall` result is non-empty exactly when `re.search` succeeds. -/
def appStep (c : List Char) (r : AnalyzeResult) (p : List RItem) : AnalyzeResult :=
  if searchItems p c then
    { r with has_fastapi := true, app_instances := r.app_instances ++ [p],
             confidence := r.confidence + 40 }
  else r

/-- `'@app.route' in content or '@app.get' in content or '@app.post' in content`. -/
def routeB (c : List Char) : Bool :=
  containsSub ("@app.route").toList c || containsSub ("@app.get").toList c ||
    containsSub ("@app.post").toList c

/-- `'uvicorn' in content`. -/
def uvicornB (c : List Char) : Bool :=
  containsSub ("uvicorn").toList c

/-- Body of `analyze_python_file` after a successful read. -/
def analyzeContent (c : List Char) : AnalyzeResult :=
  let r0 : AnalyzeResult := ⟨false, [], [], 0⟩
  let r1 := import_patterns.foldl (importStep c) r0
  let r2 := app_patterns.foldl (appStep c) r1
  let r3 := if routeB c then { r2 with confidence := r2.confidence + 20 } else r2
  if uvicornB c then { r3 with confidence := r3.confidence + 10 } else r3

/-- `FastAPIDetector.analyze_python_file`; `none` models a read that raises,
which the function's `except` turns into the zero-confidence record. -/
def analyze_python_file : Option (List Char) → AnalyzeResult
  | none => ⟨false, [], [], 0⟩
  | some c => analyzeContent c

/-- One file met by `os.walk` during `scan_directory_for_fastapi`:
its base name, the recorded relative path, and the result of reading it
(`none` = the read raises). -/
structure WalkEntry where
  fileName : List Char
  relPath : List Char
  content : Option (List Char)
deriving DecidableEq

/-- One element of `results["found_apps"]`. -/
structure FoundApp where
  file : List Char
  app_instances : List (List RItem)
  matchedImports : List (List RItem)
  confidence : Nat
deriving DecidableEq

/-- `file.endswith('.py')`. -/
def pyB (e : WalkEntry) : Bool :=
  endsWithL e.fileName (".py").toList

/-- `main_file_names` of `scan_directory_for_fastapi`. -/
def main_file_names : List (List Char) :=
  [("main.py").toList, ("app.py").toList, ("server.py").toList,
   ("api.py").toList, ("run.py").toList]

/-- The `found_apps` entry built for a scanned file. -/
def mkFound (e : WalkEntry) : FoundApp :=
  let info := analyze_python_file e.content
  ⟨e.relPath, info.app_instances, info.matchedImports, info.confidence⟩

/-- Accumulator of the `os.walk` loop. -/
structure ScanAcc where
  found_apps : List FoundApp
  python_files : List (List Char)
  potential_main_files : List (List Char)
  has_fastapi : Bool
deriving DecidableEq

/-- Loop body of `scan_directory_for_fastapi`. -/
def scan_step (acc : ScanAcc) (e : WalkEntry) : ScanAcc :=
  if pyB e then
    let acc1 := { acc with python_files := acc.python_files ++ [e.relPath] }
    let acc2 :=
      if e.fileName ∈ main_file_names then
        { acc1 with potential_main_files := acc1.potential_main_files ++ [e.relPath] }
      else acc1
    if (analyze_python_file e.content).has_fastapi then
      { acc2 with has_fastapi := true, found_apps := acc2.found_apps ++ [mkFound e] }
    else acc2
  else acc

/-- `main_names` of `get_recommended_app` (note: no `run.py`). -/
def main_names : List (List Char) :=
  [("main.py").toList, ("app.py").toList, ("server.py").toList, ("api.py").toList]

/-- `os.path.basename` for the POSIX-joined relative paths produced by the walk. -/
def basenameOf (p : List Char) : List Char :=
  (splitOnChar '/' p).getLastD []

/-- `score_app` inside `get_recommended_app`. -/
def score_app (a : FoundApp) : Nat :=
  a.confidence +
    (if basenameOf a.file ∈ main_names then 50 else 0) +
    (if ('/' ∈ a.file) || ('\\' ∈ a.file) then 0 else 20)

/-- Stable insertion for a descending sort: Python's `sorted(key, reverse=True)`
keeps equal-keyed elements in their original order, so the (earlier) element
being inserted passes elements with a strictly larger key and stops before the
first element whose key is not larger. -/
def insertDesc (x : FoundApp) : List FoundApp → List FoundApp
  | [] => [x]
  | y :: ys => if score_app y > score_app x then y :: insertDesc x ys else x :: y :: ys

/-- `sorted(found_apps, key=score_app, reverse=True)`. -/
def sortedDesc : List FoundApp → List FoundApp
  | [] => []
  | x :: xs => insertDesc x (sortedDesc xs)

/-- `FastAPIDetector.get_recommended_app`; the Python code returns `{}` on an
empty list, modelled as `none`. -/
def get_recommended_app (l : List FoundApp) : Option FoundApp :=
  (sortedDesc l).head?

/-- The final scan result (`results` dictionary). -/
structure ScanResult where
  found_apps : List FoundApp
  python_files : List (List Char)
  potential_main_files : List (List Char)
  has_fastapi : Bool
  recommended_app : Option FoundApp
deriving DecidableEq

/-- `FastAPIDetector.scan_directory_for_fastapi`, over the `os.walk`
file sequence in walk order. -/
def scan_directory_for_fastapi (walk : List WalkEntry) : ScanResult :=
  let acc := walk.foldl scan_step ⟨[], [], [], false⟩
  { found_apps := acc.found_apps, python_files := acc.python_files,
    potential_main_files := acc.potential_main_files, has_fastapi := acc.has_fastapi,
    recommended_app :=
      if acc.found_apps = [] then none else get_recommended_app acc.found_apps }

/-!  ### `extract_app_variable_name` and its AST model

`ast.parse` cannot be reimplemented here; its outcome is an oracle:
`none` models a raised `SyntaxError` (the function's `except` then returns
the default immediately), `some l` the `ast.Assign` nodes met by `ast.walk`,
in walk order. -/

/-- The shape of `node.value.func` that the code inspects via `hasattr`. -/
inductive PyFunc
  | name (id : String)   -- `ast.Name`, has `.id`
  | attr (a : String)    -- `ast.Attribute`, has `.attr`
  | other
deriving DecidableEq

/-- The right side of an assignment. -/
inductive PyValue
  | call (f : PyFunc)
  | other
deriving DecidableEq

/-- One element of `node.targets`. -/
inductive PyTarget
  | name (id : String)
  | other
deriving DecidableEq

/-- An `ast.Assign` node. -/
structure PyAssign where
  targets : List PyTarget
  value : PyValue
deriving DecidableEq

/-- The body of the `ast.walk` loop for one `Assign` node: `some v` when the
loop would `return v`, `none` when it continues. -/
def assignHit (a : PyAssign) : Option String :=
  match a.value with
  | .call f =>
      match f with
      | .name i =>
          if i = ("FastAPI" : String) then
            match a.targets with
            | .name t :: _ => some t
            | _ => none
          else none
      | .attr b =>
          if b = ("FastAPI" : String) then
            match a.targets with
            | .name t :: _ => some t
            | _ => none
          else none
      | .other => none
  | .other => none

/-- Tail of `(\w+)\s*=\s*FastAPI\(` after the group (case-sensitive). -/
def groupTail1 : List RItem :=
  [.wsStar, .lit false ['='], .wsStar, .lit false ("FastAPI(").toList]

/-- Tail of `(\w+)\s*=\s*fastapi\.FastAPI\(` after the group (case-sensitive). -/
def groupTail2 : List RItem :=
  [.wsStar, .lit false ['='], .wsStar, .lit false ("fastapi.FastAPI(").toList]

/-- Greedy match of `(\w+)` followed by `tail` at the current position,
returning the group: extend the word run as far as possible, backtracking to
shorter non-empty runs exactly as Python's engine does. -/
def grpGo (tail : List RItem) : List Char → Option (List Char)
  | [] => none
  | c :: cs =>
      if isWordChar c then
        match grpGo tail cs with
        | some g => some (c :: g)
        | none => if matchItems tail cs then some [c] else none
      else none

/-- `re.search` for the group patterns: leftmost start position wins. -/
def grpSearch (tail : List RItem) : List Char → Option (List Char)
  | [] => none
  | c :: cs =>
      match grpGo tail (c :: cs) with
      | some g => some g
      | none => grpSearch tail cs

/-- The regex fallback of `extract_app_variable_name`. -/
def regexFallback (content : List Char) : String :=
  match grpSearch groupTail1 content with
  | some w => String.mk w
  | none =>
      match grpSearch groupTail2 content with
      | some w => String.mk w
      | none => "app"

/-- `FastAPIDetector.extract_app_variable_name`.  When `ast.parse` raises
(`parsed = none`) the surrounding `try` jumps to the handler, which returns
the default `"app"` without consulting the regex fallback. -/
def extract_app_variable_name (parsed : Option (List PyAssign)) (content : List Char) :
    String :=
  match parsed with
  | none => "app"
  | some tree =>
      match tree.findSome? assignHit with
      | some v => v
      | none => regexFallback content

/-- Every `ast.Name` target in the walk carries a non-empty identifier
(guaranteed by the Python grammar). -/
def targetNB : PyTarget → Bool
  | .name v => !v.isEmpty
  | .other => true

def targetsNonempty (l : List PyAssign) : Bool :=
  l.all (fun a => a.targets.all targetNB)

/-!  ### `src/utils/validators.py`  -/

def emptyUrlError : String := "URL cannot be empty"

def malformedUrlError : String :=
  "Invalid GitHub URL format. Use: https://github.com/username/repository"

/-- `^https://github\.com/[\w\-\.]+/[\w\-\.]+/?$`. -/
def github_pattern : List RItem :=
  [.lit false ("https://github.com/").toList, .whdPlus, .lit false ['/'],
   .whdPlus, .optChar '/', .endA]

structure ValidationOut where
  valid : Bool
  error : Option String
deriving DecidableEq

/-- `validators.validate_github_url` (the purely structural validator).
Python's `if not url` is true only for the empty string. -/
def validate_github_url (url : List Char) : ValidationOut :=
  if url.isEmpty then { valid := false, error := some emptyUrlError }
  else if matchItems github_pattern url then { valid := true, error := none }
  else { valid := false, error := some malformedUrlError }

/-- Python `url.replace('.git', '')`: delete every (leftmost, non-overlapping)
occurrence of `.git`. -/
def removeDotGit : List Char → List Char
  | '.' :: 'g' :: 'i' :: 't' :: rest => removeDotGit rest
  | c :: rest => c :: removeDotGit rest
  | [] => []

/-- `validators.extract_repo_name`: strip trailing slashes, delete every
`.git`, return the last `/`-separated segment.  The `except` branch is
unreachable for total string operations and is not modelled. -/
def extract_repo_name (url : List Char) : List Char :=
  (splitOnChar '/' (removeDotGit (rstripSlash url))).getLastD []

/-!  ### `src/services/git_clone.py` — `GitHubRepoHandler`

The oracle `Env` fixes the behaviour of the external world for one pipeline
run; `St` is the mutable state: the number of `requests.get` calls issued,
the set of existing temporary directories, and the handler's `self.temp_dir`.
Timeout values (10 s / 60 s) have no observable effect in this model.  The
JSON payloads of the metadata and listing responses only populate
informational fields and are not modelled. -/

/-- Outcome of the `git clone` subprocess call. -/
inductive CloneOutcome
  | ok            -- exit code 0
  | timeoutExp    -- `subprocess.TimeoutExpired`
  | toolMissing   -- `FileNotFoundError`
  | exitNonzero   -- non-zero exit code
deriving DecidableEq

structure Env where
  repoStatus : Nat                     -- status of GET /repos/{owner}/{repo}
  contentsStatus : Nat                 -- status of GET .../contents
  reqStatus : Nat                      -- status of GET .../contents/requirements.txt
  reqContent : Option (List Char)      -- decoded requirements body (none: decode raises)
  netRaises : Bool                     -- requests.get raises a RequestException
  cloneOutcome : CloneOutcome
  tempName : String                    -- directory name created by tempfile.mkdtemp
  walk : List WalkEntry                -- os.walk of the cloned checkout
  appRead : Option (List Char)         -- read of the recommended app file (none: raises)
  parsedApp : Option (List PyAssign)   -- ast.parse of that content (none: raises)
  genOk : Bool                         -- notebook_result["success"]
  emitRaises : Bool                    -- an artifact save step raises
deriving DecidableEq

structure St where
  netCalls : Nat
  fs : List String
  tempDir : Option String
deriving DecidableEq

inductive VResult
  | invalid (err : String)
  | valid (owner repo : List Char)
deriving DecidableEq

/-- Strip a trailing `.git` (`repo[:-4]`) as `validate_github_url` in
`git_clone.py` does. -/
def stripDotGit (repo : List Char) : List Char :=
  if endsWithL repo (".git").toList then repo.take (repo.length - 4) else repo

/-- `urlparse(url).path`, given that `url` starts with
`https://github.com/`: the characters after the authority, cut at the first
query or fragment delimiter. -/
def urlPath (url : List Char) : List Char :=
  (url.drop ("https://github.com").length).takeWhile
    (fun c => !(decide (c = '?') || decide (c = '#')))

/-- `GitHubRepoHandler.validate_github_url`: structural checks first, then one
`requests.get` against the repository API. -/
def repo_validate_github_url (env : Env) (url : List Char) (st : St) : VResult × St :=
  if startsWithL url ("https://github.com/").toList = false then
    (.invalid "Must be a valid GitHub HTTPS URL (https://github.com/username/repo)", st)
  else
    let parts := splitOnChar '/' (stripSlashes (urlPath url))
    if parts.length < 2 then (.invalid "Invalid GitHub URL format", st)
    else
      let owner := parts.getD 0 []
      let repo := stripDotGit (parts.getD 1 [])
      let st1 : St := { st with netCalls := st.netCalls + 1 }
      if env.netRaises then (.invalid "Network error", st1)
      else if env.repoStatus = 404 then
        (.invalid "Repository not found or is private", st1)
      else if env.repoStatus ≠ 200 then (.invalid "GitHub API error", st1)
      else (.valid owner repo, st1)

/-- `GitHubRepoHandler.analyze_repository_structure`: validate, then one
listing request; the listing payload only feeds informational fields. -/
def analyze_repository_structure (env : Env) (url : List Char) (st : St) :
    VResult × St :=
  match repo_validate_github_url env url st with
  | (.invalid e, st1) => (.invalid e, st1)
  | (.valid o r, st1) =>
      let st2 : St := { st1 with netCalls := st1.netCalls + 1 }
      if env.netRaises then (.invalid "Analysis error", st2)
      else if env.contentsStatus ≠ 200 then
        (.invalid "Could not access repository contents", st2)
      else (.valid o r, st2)

/-- `GitHubRepoHandler.get_requirements_content`: re-validate, then fetch
`requirements.txt`; a non-200 status, a decode failure and a transport
failure all become `none`. -/
def get_requirements_content (env : Env) (url : List Char) (st : St) :
    Option (List Char) × St :=
  match repo_validate_github_url env url st with
  | (.invalid _, st1) => (none, st1)
  | (.valid _ _, st1) =>
      let st2 : St := { st1 with netCalls := st1.netCalls + 1 }
      if env.netRaises then (none, st2)
      else if env.reqStatus = 200 then
        match env.reqContent with
        | some c => (some c, st2)
        | none => (none, st2)
      else (none, st2)

inductive CloneRes
  | success (dir : String)
  | failure (msg : String)
deriving DecidableEq

/-- `GitHubRepoHandler.clone_repository_temp`: `mkdtemp` creates the directory
and sets `self.temp_dir` before the subprocess runs, so on a failed clone the
directory exists and stays recorded. -/
def clone_repository_temp (env : Env) (url : List Char) (st : St) : CloneRes × St :=
  let d := env.tempName
  let st1 : St := { st with fs := st.fs ++ [d], tempDir := some d }
  match env.cloneOutcome with
  | .ok => (.success d, st1)
  | .timeoutExp => (.failure "Clone operation timed out", st1)
  | .toolMissing => (.failure "Git not found. Please install Git.", st1)
  | .exitNonzero => (.failure "Git clone failed", st1)

/-- `GitHubRepoHandler.cleanup_temp_directory` with `_force_remove_readonly`:
runs only when `self.temp_dir` is set and the directory exists; the removal
strategies either delete the directory (`rmOk = true`) or give up silently,
and `self.temp_dir` is cleared in every executed branch.  It never raises. -/
def cleanup_temp_directory (rmOk : Bool) (st : St) : St :=
  match st.tempDir with
  | none => st
  | some d =>
      if d ∈ st.fs then
        if rmOk then { st with tempDir := none, fs := st.fs.erase d }
        else { st with tempDir := none }
      else st

/-!  ### `src/services/deployer.py` — `DeploymentService.deploy_repository`  -/

/-- Python truthiness of an optional string. -/
def truthyOpt : Option (List Char) → Bool
  | none => false
  | some c => !c.isEmpty

/-- Steps 4: `requirements_content = custom_requirements;
if not requirements_content: requirements_content = get_requirements_content(url)`. -/
def resolveRequirements (env : Env) (url : List Char) (custom : Option (List Char))
    (st : St) : Option (List Char) × St :=
  if truthyOpt custom then (custom, st) else get_requirements_content env url st

/-- The `"source"` field of the success payload (deployer.py line 189). -/
def sourceOf (custom content : Option (List Char)) : String :=
  if truthyOpt custom then "uploaded"
  else if truthyOpt content then "repository"
  else "default"

/-- The `"step"` identifiers of the failure dictionaries. -/
inductive DStep
  | repository_validation
  | repository_cloning
  | fastapi_detection
  | notebook_generation
  | general_error
deriving DecidableEq

/-- The discriminated result of `deploy_repository` (success payload reduced
to the analysed facts; the artifact text is opaque templating). -/
inductive DResult
  | failure (step : DStep) (error : String)
  | success (app_file : List Char) (app_variable : String) (confidence : Nat)
      (reqSource : String) (hasCustom : Bool)
deriving DecidableEq

structure DeployOut where
  result : DResult
  st : St
  gotWorkspace : Bool
deriving DecidableEq

/-- Steps 3–9 of `deploy_repository` (the body of the inner `try`); `.error`
carries the state at the point where an exception is raised. -/
def deployInner (env : Env) (url : List Char) (custom : Option (List Char))
    (st : St) : Except St (DResult × St) :=
  let scanR := scan_directory_for_fastapi env.walk
  if scanR.has_fastapi = false then
    .ok (.failure .fastapi_detection "No FastAPI application found in repository", st)
  else
    match
      (match scanR.recommended_app with
       | some a => some a
       | none => scanR.found_apps.head?) with
    | none => .error st        -- found_apps[0] raises IndexError
    | some app =>
        match env.appRead with
        | none => .error st    -- open()/read() raises
        | some content =>
            let appVar := extract_app_variable_name env.parsedApp content
            let rq := resolveRequirements env url custom st
            if env.genOk = false then
              .ok (.failure .notebook_generation "Failed to generate notebook", rq.2)
            else if env.emitRaises then .error rq.2
            else
              .ok (.success app.file appVar app.confidence
                     (sourceOf custom rq.1) (truthyOpt rq.1), rq.2)

/-- `DeploymentService.deploy_repository`: validation, clone, then the inner
`try ... finally cleanup` wrapped in the outer `except` which performs a
second cleanup and returns the `general_error` failure. -/
def deploy_repository (env : Env) (rmOk : Bool) (url : List Char)
    (custom : Option (List Char)) (st0 : St) : DeployOut :=
  match (analyze_repository_structure env url st0).1 with
  | .invalid e =>
      ⟨.failure .repository_validation e,
       (analyze_repository_structure env url st0).2, false⟩
  | .valid _ _ =>
      match (clone_repository_temp env url
          (analyze_repository_structure env url st0).2).1 with
      | .failure msg =>
          ⟨.failure .repository_cloning msg,
           (clone_repository_temp env url
             (analyze_repository_structure env url st0).2).2, false⟩
      | .success _ =>
          match deployInner env url custom
              (clone_repository_temp env url
                (analyze_repository_structure env url st0).2).2 with
          | .ok (r, st3) => ⟨r, cleanup_temp_directory rmOk st3, true⟩
          | .error st3 =>
              ⟨.failure .general_error "Deployment preparation failed",
               cleanup_temp_directory rmOk (cleanup_temp_directory rmOk st3), true⟩

/-!  ### Concrete data used by the witnesses  -/

def st00 : St := ⟨0, [], none⟩

def urlOk : List Char := ("https://github.com/a/b").toList

/-- A benign world: repository exists, clone succeeds, empty checkout. -/
def envDemo : Env :=
  { repoStatus := 200, contentsStatus := 200, reqStatus := 200, reqContent := none,
    netRaises := false, cloneOutcome := .ok, tempName := "tmpdir", walk := [],
    appRead := none, parsedApp := none, genOk := true, emitRaises := false }

def envA : Env := { envDemo with tempName := "tmpA" }

def envB : Env := { envDemo with tempName := "tmpB" }

def entryC5 : WalkEntry :=
  ⟨("main.py").toList, ("main.py").toList,
   some ("from fastapi import FastAPI\napp = FastAPI()").toList⟩

def demoTree : List PyAssign :=
  [⟨[.name "app"], .call (.name "FastAPI")⟩]

/-- The `found_apps` entries contributed by a list of walk entries (after the
`.py` filter): one per file whose analysis sets `has_fastapi`. -/
def appsAll : List WalkEntry → List FoundApp
  | [] => []
  | e :: es =>
      (if (analyze_python_file e.content).has_fastapi then [mkFound e] else []) ++ appsAll es

/-!  ## Proof development  -/

theorem litM_some_decomp :
    ∀ (pat u r : List Char), litM false pat u = some r → u = pat ++ r := by
  intro pat
  induction pat with
  | nil =>
      intro u r h
      simp only [litM, Option.some.injEq] at h
      simp [h]
  | cons p ps ih =>
      intro u r h
      cases u with
      | nil => simp [litM] at h
      | cons c cs =>
          simp only [litM] at h
          by_cases hc : chEq false p c = true
          · simp only [hc, if_true] at h
            have hpc : p = c := by
              have := hc
              simp only [chEq, if_neg (by simp : ¬(false = true)), decide_eq_true_eq] at this
              exact this
            subst hpc
            simpa using ih cs r h
          · simp only [Bool.not_eq_true] at hc
            simp [hc] at h

theorem litM_append_some (ci : Bool) :
    ∀ (cs s r t : List Char), litM ci cs s = some r →
      litM ci cs (s ++ t) = some (r ++ t) := by
  intro cs
  induction cs with
  | nil =>
      intro s r t h
      simp only [litM, Option.some.injEq] at h
      simp [litM, h]
  | cons p ps ih =>
      intro s r t h
      cases s with
      | nil => simp [litM] at h
      | cons c cs2 =>
          simp only [litM, List.cons_append] at h ⊢
          by_cases hc : chEq ci p c = true
          · simp only [hc, if_true] at h ⊢
            exact ih cs2 r t h
          · simp only [Bool.not_eq_true] at hc
            simp [hc] at h

theorem clsTails_append_mem (keep : Char → Bool) :
    ∀ (s r t : List Char), r ∈ clsTails keep s → (r ++ t) ∈ clsTails keep (s ++ t) := by
  intro s
  induction s with
  | nil =>
      intro r t h
      simp only [clsTails, List.mem_singleton] at h
      subst h
      cases t with
      | nil => simp [clsTails]
      | cons c cs => simp [clsTails]
  | cons c cs ih =>
      intro r t h
      simp only [clsTails] at h
      rcases List.mem_cons.mp h with h | h
      · subst h
        simp [clsTails]
      · by_cases hk : keep c = true
        · rw [if_pos hk] at h
          have h2 := ih r t h
          simp only [List.cons_append, clsTails, hk, if_true]
          exact List.mem_cons_of_mem _ h2
        · simp only [Bool.not_eq_true] at hk
          simp [hk] at h

theorem matchItems_append (items : List RItem) (hna : noAnchor items = true) :
    ∀ s t : List Char, matchItems items s = true → matchItems items (s ++ t) = true := by
  induction items with
  | nil => intro s t _; rfl
  | cons i rest ih =>
      have hrest : noAnchor rest = true := by
        simp only [noAnchor, List.all_cons, Bool.and_eq_true] at hna
        exact hna.2
      intro s t h
      cases i with
      | lit ci cs =>
          simp only [matchItems] at h ⊢
          cases hl : litM ci cs s with
          | none => rw [hl] at h; simp at h
          | some r =>
              rw [hl] at h
              rw [litM_append_some ci cs s r t hl]
              exact ih hrest r t h
      | wsStar =>
          simp only [matchItems, List.any_eq_true] at h ⊢
          obtain ⟨r, hr, hm⟩ := h
          exact ⟨r ++ t, clsTails_append_mem _ s r t hr, ih hrest r t hm⟩
      | wsPlus =>
          cases s with
          | nil => simp [matchItems] at h
          | cons c cs2 =>
              simp only [matchItems, List.cons_append, Bool.and_eq_true,
                List.any_eq_true] at h ⊢
              obtain ⟨hsp, r, hr, hm⟩ := h
              exact ⟨hsp, r ++ t, clsTails_append_mem _ cs2 r t hr, ih hrest r t hm⟩
      | dotStar =>
          simp only [matchItems, List.any_eq_true] at h ⊢
          obtain ⟨r, hr, hm⟩ := h
          exact ⟨r ++ t, clsTails_append_mem _ s r t hr, ih hrest r t hm⟩
      | whdPlus =>
          cases s with
          | nil => simp [matchItems] at h
          | cons c cs2 =>
              simp only [matchItems, List.cons_append, Bool.and_eq_true,
                List.any_eq_true] at h ⊢
              obtain ⟨hsp, r, hr, hm⟩ := h
              exact ⟨hsp, r ++ t, clsTails_append_mem _ cs2 r t hr, ih hrest r t hm⟩
      | optChar ch =>
          simp only [matchItems, Bool.or_eq_true] at h ⊢
          rcases h with h | h
          · exact Or.inl (ih hrest s t h)
          · cases s with
            | nil => simp at h
            | cons c cs2 =>
                simp only [Bool.and_eq_true] at h
                obtain ⟨hc, hm⟩ := h
                refine Or.inr ?_
                simp only [List.cons_append, Bool.and_eq_true]
                exact ⟨hc, ih hrest cs2 t hm⟩
      | endA => simp [noAnchor, List.all_cons] at hna

theorem searchItems_of_match_drop (items : List RItem) :
    ∀ (s : List Char) (n : Nat), matchItems items (s.drop n) = true →
      searchItems items s = true := by
  intro s
  induction s with
  | nil => intro n h; simpa [searchItems] using h
  | cons c cs ih =>
      intro n h
      cases n with
      | zero =>
          simp only [List.drop_zero] at h
          simp [searchItems, h]
      | succ m =>
          simp only [List.drop_succ_cons] at h
          simp only [searchItems, Bool.or_eq_true]
          exact Or.inr (ih m h)

theorem searchItems_drop_exists (items : List RItem) :
    ∀ s : List Char, searchItems items s = true →
      ∃ n, matchItems items (s.drop n) = true := by
  intro s
  induction s with
  | nil => intro h; exact ⟨0, by simpa [searchItems] using h⟩
  | cons c cs ih =>
      intro h
      simp only [searchItems, Bool.or_eq_true] at h
      rcases h with h | h
      · exact ⟨0, by simpa using h⟩
      · obtain ⟨n, hn⟩ := ih h
        exact ⟨n + 1, by simpa using hn⟩

theorem containsSub_decomp (pat s : List Char) (h : containsSub pat s = true) :
    ∃ n t, s.drop n = pat ++ t := by
  obtain ⟨n, hn⟩ := searchItems_drop_exists _ s h
  simp only [matchItems] at hn
  cases hl : litM false pat (s.drop n) with
  | none => rw [hl] at hn; simp at hn
  | some r => exact ⟨n, r, litM_some_decomp pat _ r hl⟩

theorem importFold_conf (c : List Char) :
    ∀ (pats : List (List RItem)) (r : AnalyzeResult),
      (pats.foldl (importStep c) r).confidence =
        r.confidence + 30 * pats.countP (fun p => searchItems p c) := by
  intro pats
  induction pats with
  | nil => intro r; simp
  | cons p ps ih =>
      intro r
      simp only [List.foldl_cons, List.countP_cons, ih]
      cases h : searchItems p c <;> simp [importStep, h] <;> ring

theorem appFold_conf (c : List Char) :
    ∀ (pats : List (List RItem)) (r : AnalyzeResult),
      (pats.foldl (appStep c) r).confidence =
        r.confidence + 40 * pats.countP (fun p => searchItems p c) := by
  intro pats
  induction pats with
  | nil => intro r; simp
  | cons p ps ih =>
      intro r
      simp only [List.foldl_cons, List.countP_cons, ih]
      cases h : searchItems p c <;> simp [appStep, h] <;> ring

theorem importFold_has (c : List Char) :
    ∀ (pats : List (List RItem)) (r : AnalyzeResult),
      (pats.foldl (importStep c) r).has_fastapi =
        (r.has_fastapi || pats.any (fun p => searchItems p c)) := by
  intro pats
  induction pats with
  | nil => intro r; simp
  | cons p ps ih =>
      intro r
      simp only [List.foldl_cons, List.any_cons, ih]
      cases h : searchItems p c <;> simp [importStep, h]

theorem appFold_has (c : List Char) :
    ∀ (pats : List (List RItem)) (r : AnalyzeResult),
      (pats.foldl (appStep c) r).has_fastapi =
        (r.has_fastapi || pats.any (fun p => searchItems p c)) := by
  intro pats
  induction pats with
  | nil => intro r; simp
  | cons p ps ih =>
      intro r
      simp only [List.foldl_cons, List.any_cons, ih]
      cases h : searchItems p c <;> simp [appStep, h]

theorem analyzeContent_confidence (c : List Char) :
    (analyzeContent c).confidence =
      30 * import_patterns.countP (fun p => searchItems p c) +
      40 * app_patterns.countP (fun p => searchItems p c) +
      (if routeB c then 20 else 0) + (if uvicornB c then 10 else 0) := by
  unfold analyzeContent
  cases hr : routeB c <;> cases hu : uvicornB c <;>
    simp [hr, hu, appFold_conf, importFold_conf] <;> ring

theorem analyzeContent_has (c : List Char) :
    (analyzeContent c).has_fastapi =
      (import_patterns.any (fun p => searchItems p c) ||
        app_patterns.any (fun p => searchItems p c)) := by
  unfold analyzeContent
  cases hr : routeB c <;> cases hu : uvicornB c <;>
    simp [hr, hu, appFold_has, importFold_has]

/-- Claim C3: for every scanned source file, `analyze_python_file` computes
the confidence additively: +30 per matching import pattern, +40 per matching
instance-construction pattern, +20 when route-decorator evidence is present,
+10 when uvicorn is mentioned. -/
theorem C3_confidence_additive (c : List Char) :
    (analyze_python_file (some c)).confidence =
      30 * import_patterns.countP (fun p => searchItems p c) +
      40 * app_patterns.countP (fun p => searchItems p c) +
      (if routeB c then 20 else 0) + (if uvicornB c then 10 else 0) :=
  analyzeContent_confidence c

theorem matchItems_github_ws (c : Char) (cs : List Char) (hc : isPySpace c = true) :
    matchItems github_pattern (c :: cs) = false := by
  have h1 : chEq false 'h' c = false := by
    simp only [isPySpace, Bool.or_eq_true, decide_eq_true_eq] at hc
    rcases hc with ((((h | h) | h) | h) | h) | h <;> subst h <;> decide
  have h2 : ("https://github.com/").toList = 'h' :: ("ttps://github.com/").toList := by
    decide
  simp only [github_pattern, h2]
  simp [matchItems, litM, h1]

/-- Claim C6 (amended): the purely structural `validate_github_url` never
throws (it is total) and returns a failure for every input that does not
match the URL pattern; the empty string — and only the empty string — gets
the empty-input error, while any input beginning with whitespace (hence every
whitespace-only input) gets the malformed-URL error. -/
theorem C6_validation_failure :
    (∀ url : List Char, url = [] →
        validate_github_url url = ⟨false, some emptyUrlError⟩) ∧
    (∀ url : List Char, matchItems github_pattern url = false →
        (validate_github_url url).valid = false) ∧
    (∀ (c : Char) (cs : List Char), isPySpace c = true →
        validate_github_url (c :: cs) = ⟨false, some malformedUrlError⟩) := by
  refine ⟨?_, ?_, ?_⟩
  · intro url h; subst h; rfl
  · intro url h
    unfold validate_github_url
    split_ifs with h1 h2
    · rfl
    · rw [h] at h2; exact absurd h2 (by simp)
    · rfl
  · intro c cs hc
    have hm := matchItems_github_ws c cs hc
    simp [validate_github_url, hm]

/-- Claim C6 counterexample: the whitespace-only input " " is truthy in
Python, so it reaches the regex check and fails with the malformed-URL
error, not with the empty-input error as the claim states. -/
theorem C6_counterexample :
    validate_github_url ((" ").toList) = ⟨false, some malformedUrlError⟩ ∧
    some malformedUrlError ≠ some emptyUrlError :=
  ⟨by decide, by decide⟩

theorem C6_witness :
    validate_github_url [] = ⟨false, some emptyUrlError⟩ ∧
    (validate_github_url (("ftp://x").toList)).valid = false ∧
    validate_github_url (' ' :: []) = ⟨false, some malformedUrlError⟩ :=
  ⟨C6_validation_failure.1 [] rfl,
   C6_validation_failure.2.1 _ (by decide),
   C6_validation_failure.2.2 ' ' [] (by decide)⟩

theorem endsWithL_drop (s suf : List Char) (h : endsWithL s suf = true) :
    s.drop (s.length - suf.length) = suf := by
  unfold endsWithL at h
  simp only [Bool.and_eq_true, decide_eq_true_eq] at h
  exact h.2

theorem stripDotGit_spec (repo : List Char) :
    (endsWithL repo ((".git").toList) = false ∧ stripDotGit repo = repo) ∨
      stripDotGit repo ++ (".git").toList = repo := by
  cases h : endsWithL repo ((".git").toList) with
  | false =>
      exact Or.inl ⟨rfl, by
        unfold stripDotGit
        rw [if_neg (fun hh => by rw [h] at hh; exact Bool.noConfusion hh)]⟩
  | true =>
      refine Or.inr ?_
      have hd := endsWithL_drop repo _ h
      have hlen : ((".git").toList).length = 4 := by decide
      rw [hlen] at hd
      calc stripDotGit repo ++ (".git").toList
          = repo.take (repo.length - 4) ++ repo.drop (repo.length - 4) := by
            rw [stripDotGit, if_pos h, hd]
        _ = repo := List.take_append_drop _ _

/-- Claim C9 (amended): the repo name computed inside the pipeline validator
(`stripDotGit`, from `git_clone.validate_github_url`) strips exactly one
trailing `.git` and is otherwise unchanged; the standalone
`extract_repo_name` utility instead deletes every occurrence of `.git`, so
for a repository named `my.gitx` it returns the altered name `myx`. -/
theorem C9_repo_name_stripping :
    (∀ repo : List Char,
       (endsWithL repo ((".git").toList) = false ∧ stripDotGit repo = repo) ∨
         stripDotGit repo ++ (".git").toList = repo) ∧
    extract_repo_name (("https://github.com/o/my.gitx").toList) = ("myx").toList :=
  ⟨stripDotGit_spec, by decide⟩

/-- Claim C9 counterexample: `https://github.com/o/my.gitx` is accepted by
the structural validator, yet `extract_repo_name` removes the interior
`.git` and returns `myx` — the name is altered beyond a trailing-suffix
strip. -/
theorem C9_counterexample :
    validate_github_url (("https://github.com/o/my.gitx").toList) = ⟨true, none⟩ ∧
    extract_repo_name (("https://github.com/o/my.gitx").toList) = ("myx").toList ∧
    ("myx").toList ≠ ("my.gitx").toList :=
  ⟨by decide, by decide, by decide⟩

theorem grpGo_ne_nil (tail : List RItem) :
    ∀ (s g : List Char), grpGo tail s = some g → g ≠ [] := by
  intro s
  induction s with
  | nil => intro g h; simp [grpGo] at h
  | cons c cs ih =>
      intro g h
      simp only [grpGo] at h
      split at h
      · split at h
        · simp only [Option.some.injEq] at h
          subst h
          simp
        · split at h
          · simp only [Option.some.injEq] at h
            subst h
            simp
          · simp at h
      · simp at h

theorem grpSearch_ne_nil (tail : List RItem) :
    ∀ (s g : List Char), grpSearch tail s = some g → g ≠ [] := by
  intro s
  induction s with
  | nil => intro g h; simp [grpSearch] at h
  | cons c cs ih =>
      intro g h
      simp only [grpSearch] at h
      cases hg : grpGo tail (c :: cs) with
      | some g2 =>
          rw [hg] at h
          simp only [Option.some.injEq] at h
          subst h
          exact grpGo_ne_nil tail _ _ hg
      | none =>
          rw [hg] at h
          exact ih g h

theorem string_mk_ne_empty (w : List Char) (hw : w ≠ []) : String.mk w ≠ "" := by
  intro h
  have := congrArg String.data h
  simp at this
  exact hw this

theorem regexFallback_ne (content : List Char) : regexFallback content ≠ "" := by
  unfold regexFallback
  cases h1 : grpSearch groupTail1 content with
  | some w => exact string_mk_ne_empty w (grpSearch_ne_nil _ _ _ h1)
  | none =>
      cases h2 : grpSearch groupTail2 content with
      | some w => exact string_mk_ne_empty w (grpSearch_ne_nil _ _ _ h2)
      | none => decide

theorem assignHit_target (a : PyAssign) (v : String) (h : assignHit a = some v) :
    ∃ rest, a.targets = .name v :: rest := by
  obtain ⟨ts, val⟩ := a
  cases val with
  | other => simp [assignHit] at h
  | call f =>
      cases f with
      | other => simp [assignHit] at h
      | name i =>
          simp only [assignHit] at h
          split at h
          · cases ts with
            | nil => simp at h
            | cons t rest =>
                cases t with
                | other => simp at h
                | name t0 =>
                    simp only [Option.some.injEq] at h
                    subst h
                    exact ⟨rest, rfl⟩
          · simp at h
      | attr b =>
          simp only [assignHit] at h
          split at h
          · cases ts with
            | nil => simp at h
            | cons t rest =>
                cases t with
                | other => simp at h
                | name t0 =>
                    simp only [Option.some.injEq] at h
                    subst h
                    exact ⟨rest, rfl⟩
          · simp at h

theorem findSome?_assignHit_ne (l : List PyAssign) (v : String)
    (hl : targetsNonempty l = true) (h : l.findSome? assignHit = some v) : v ≠ "" := by
  induction l with
  | nil => simp [List.findSome?] at h
  | cons a as ih =>
      simp only [targetsNonempty, List.all_cons, Bool.and_eq_true] at hl
      rw [List.findSome?] at h
      cases ha : assignHit a with
      | some w =>
          rw [ha] at h
          simp only [Option.some.injEq] at h
          subst h
          obtain ⟨rest, hts⟩ := assignHit_target a _ ha
          have h1 := hl.1
          rw [hts] at h1
          simp only [List.all_cons, Bool.and_eq_true, targetNB] at h1
          intro hv
          rw [hv] at h1
          have h2 := h1.1
          rw [show ("" : String).isEmpty = true from by decide] at h2
          exact Bool.noConfusion h2
      | none =>
          rw [ha] at h
          exact ih hl.2 h

/-- Claim C7 (amended): `extract_app_variable_name` is total and always
returns a non-empty identifier; when structural parsing succeeds it returns
the first AST assignment hit, else the regex fallback (which itself defaults
to `"app"`); but when `ast.parse` raises, the surrounding `except` returns
the default `"app"` directly, without consulting the regex fallback. -/
theorem C7_variable_resolver (parsed : Option (List PyAssign)) (content : List Char)
    (hids : ∀ l, parsed = some l → targetsNonempty l = true) :
    extract_app_variable_name parsed content ≠ "" ∧
    extract_app_variable_name none content = "app" ∧
    (∀ l, parsed = some l → l.findSome? assignHit = none →
        extract_app_variable_name parsed content = regexFallback content) := by
  refine ⟨?_, rfl, ?_⟩
  · cases parsed with
    | none => exact (by decide : ("app" : String) ≠ "")
    | some l =>
        simp only [extract_app_variable_name]
        cases hf : l.findSome? assignHit with
        | some v => exact findSome?_assignHit_ne l v (hids l rfl) hf
        | none => exact regexFallback_ne content
  · intro l hp hf
    subst hp
    simp [extract_app_variable_name, hf]

/-- Claim C7 counterexample: on the non-source text `( myapp = FastAPI(`,
Python's `ast.parse` raises a SyntaxError (unbalanced parenthesis), so the
code returns the default `"app"`; yet the regex of the claimed fallback does
match with group `myapp`.  The claimed order (AST, else regex, else default)
would return `"myapp"`, not `"app"`. -/
theorem C7_counterexample :
    extract_app_variable_name none (("( myapp = FastAPI(").toList) = "app" ∧
    grpSearch groupTail1 (("( myapp = FastAPI(").toList) = some (("myapp").toList) ∧
    ("app" : String) ≠ "myapp" :=
  ⟨rfl, by decide, by decide⟩

theorem C7_witness : extract_app_variable_name (some demoTree) [] ≠ "" :=
  (C7_variable_resolver (some demoTree) [] (fun l h => by cases h; decide)).1

/-- Claim C2: the requirements resolution of `deploy_repository` uses a
non-empty upload verbatim with source `"uploaded"` regardless of remote
state; otherwise it uses the repository fetch, with source `"repository"`
exactly when that content is present and non-empty and `"default"`
otherwise; the fetch maps transport failures and non-200 responses to
`none`, identically to an absent file, and the resolver is total. -/
theorem C2_requirements_priority (env : Env) (url : List Char)
    (custom : Option (List Char)) (st : St) :
    (truthyOpt custom = true →
       resolveRequirements env url custom st = (custom, st) ∧
       sourceOf custom custom = "uploaded") ∧
    (truthyOpt custom = false →
       (resolveRequirements env url custom st).1 = (get_requirements_content env url st).1 ∧
       (∀ c : List Char, (get_requirements_content env url st).1 = some c → c ≠ [] →
          sourceOf custom (some c) = "repository") ∧
       (truthyOpt (get_requirements_content env url st).1 = false →
          sourceOf custom (get_requirements_content env url st).1 = "default")) ∧
    (env.netRaises = true → (get_requirements_content env url st).1 = none) ∧
    (env.reqStatus ≠ 200 → (get_requirements_content env url st).1 = none) := by
  refine ⟨?_, ?_, ?_, ?_⟩
  · intro h
    refine ⟨by simp [resolveRequirements, h], ?_⟩
    unfold sourceOf
    rw [if_pos h]
  · intro h
    refine ⟨by simp [resolveRequirements, h], ?_, ?_⟩
    · intro c hc hne
      have hce : c.isEmpty = false := by
        cases c with
        | nil => exact absurd rfl hne
        | cons x xs => rfl
      unfold sourceOf
      rw [h]
      simp [truthyOpt, hce]
    · intro ht
      unfold sourceOf
      rw [h, ht]
      simp
  · intro h
    unfold get_requirements_content
    cases hv : repo_validate_github_url env url st with
    | mk vr st1 =>
        cases vr with
        | invalid e => simp
        | valid o r => simp [h]
  · intro h
    unfold get_requirements_content
    cases hv : repo_validate_github_url env url st with
    | mk vr st1 =>
        cases vr with
        | invalid e => simp
        | valid o r =>
            cases hn : env.netRaises <;> simp [hn, h]

theorem C2_witness :
    resolveRequirements envDemo urlOk (some (("flask\n").toList)) st00 =
      (some (("flask\n").toList), st00) ∧
    sourceOf (some (("flask\n").toList)) (some (("flask\n").toList)) = "uploaded" :=
  (C2_requirements_priority envDemo urlOk (some (("flask\n").toList)) st00).1 (by decide)

/-- Claim C8 (amended): the pipeline's URL validation runs its structural
checks before any network access — inputs failing the `https://github.com/`
prefix check (in particular `ftp://example.com/x/y`) are rejected with the
state, including the network-call counter, completely untouched, and the
pipeline fails at the `repository_validation` step; for structurally
well-formed URLs, however, validation does issue a repository-API request
(see the counterexample). -/
theorem C8_validation_network :
    (∀ (env : Env) (url : List Char) (st : St),
       startsWithL url (("https://github.com/").toList) = false →
       repo_validate_github_url env url st =
         (.invalid "Must be a valid GitHub HTTPS URL (https://github.com/username/repo)",
          st)) ∧
    (∀ (env : Env) (rmOk : Bool) (custom : Option (List Char)) (st0 : St),
       deploy_repository env rmOk (("ftp://example.com/x/y").toList) custom st0 =
         ⟨.failure .repository_validation
            "Must be a valid GitHub HTTPS URL (https://github.com/username/repo)",
          st0, false⟩) := by
  constructor
  · intro env url st h
    unfold repo_validate_github_url
    rw [if_pos h]
  · intro env rmOk custom st0
    have h : startsWithL (("ftp://example.com/x/y").toList)
        (("https://github.com/").toList) = false := by decide
    unfold deploy_repository analyze_repository_structure repo_validate_github_url
    rw [if_pos h]

/-- Claim C8 counterexample: validating the structurally well-formed URL
`https://github.com/a/b` issues a repository-API request — the network-call
counter moves from 0 to 1 — so "URL validation performs no network access"
is false for the pipeline's validator (`git_clone.validate_github_url`). -/
theorem C8_counterexample :
    (repo_validate_github_url envDemo urlOk st00).2.netCalls = 1 ∧ (1 : Nat) ≠ 0 :=
  ⟨by decide, by decide⟩

theorem C8_witness :
    repo_validate_github_url envDemo (("ftp://example.com/x/y").toList) st00 =
      (.invalid "Must be a valid GitHub HTTPS URL (https://github.com/username/repo)",
       st00) :=
  C8_validation_network.1 envDemo (("ftp://example.com/x/y").toList) st00 (by decide)

theorem clone_st (env : Env) (url : List Char) (st : St) :
    (clone_repository_temp env url st).2 =
      { st with fs := st.fs ++ [env.tempName], tempDir := some env.tempName } := by
  unfold clone_repository_temp
  cases env.cloneOutcome <;> rfl

theorem cleanup_frame_lemma (rmOk : Bool) (st : St) (x : String)
    (hx : x ∈ st.fs) (hgone : x ∉ (cleanup_temp_directory rmOk st).fs) :
    st.tempDir = some x := by
  unfold cleanup_temp_directory at hgone
  split at hgone
  · exact absurd hx hgone
  · rename_i d heq
    split at hgone
    · split at hgone
      · rw [heq]
        by_cases hxd : x = d
        · rw [hxd]
        · exact absurd ((List.mem_erase_of_ne hxd).2 hx) hgone
      · exact absurd hx hgone
    · exact absurd hx hgone

theorem cleanup_iter_keep (d : String) :
    ∀ (flags : List Bool) (st : St), d ∈ st.fs → st.tempDir ≠ some d →
      d ∈ (flags.foldl (fun s b => cleanup_temp_directory b s) st).fs := by
  intro flags
  induction flags with
  | nil => intro st h _; simpa using h
  | cons b bs ih =>
      intro st hmem hne
      simp only [List.foldl_cons]
      have hstep : d ∈ (cleanup_temp_directory b st).fs ∧
          (cleanup_temp_directory b st).tempDir ≠ some d := by
        unfold cleanup_temp_directory
        split

        · exact ⟨hmem, hne⟩
        · rename_i e heq
          have hed : e ≠ d := fun hh => hne (by rw [heq, hh])
          split
          · split
            · exact ⟨(List.mem_erase_of_ne (fun hh => hed hh.symm)).2 hmem, by simp⟩
            · exact ⟨hmem, by simp⟩
          · refine ⟨hmem, ?_⟩
            rw [heq]
            exact fun hh => hed (Option.some.inj hh)
      exact ih _ hstep.1 hstep.2

/-- Claim C10: `cleanup_temp_directory` deletes at most the directory
recorded in the handler's `temp_dir` field; a second `clone_repository_temp`
overwrites that field with the fresh directory, so the first cloned
directory survives every subsequent cleanup call on the handler. -/
theorem C10_cleanup_frame :
    (∀ (rmOk : Bool) (st : St) (x : String), x ∈ st.fs →
        x ∉ (cleanup_temp_directory rmOk st).fs → st.tempDir = some x) ∧
    (∀ (env1 env2 : Env) (url1 url2 : List Char) (st0 : St),
        env1.tempName ≠ env2.tempName →
        (clone_repository_temp env2 url2
            (clone_repository_temp env1 url1 st0).2).2.tempDir = some env2.tempName ∧
        env1.tempName ∈
          (clone_repository_temp env2 url2
            (clone_repository_temp env1 url1 st0).2).2.fs ∧
        (∀ flags : List Bool, env1.tempName ∈
            (flags.foldl (fun s b => cleanup_temp_directory b s)
              (clone_repository_temp env2 url2
                (clone_repository_temp env1 url1 st0).2).2).fs)) := by
  constructor
  · exact cleanup_frame_lemma
  · intro env1 env2 url1 url2 st0 hne
    rw [clone_st, clone_st]
    refine ⟨rfl, by simp, ?_⟩
    intro flags
    apply cleanup_iter_keep
    · simp
    · simpa using fun hh => hne hh.symm

theorem C10_witness :
    ((⟨0, ["d"], some "d"⟩ : St).tempDir = some "d") ∧
    envA.tempName ∈
      (([true, true]).foldl (fun s b => cleanup_temp_directory b s)
        (clone_repository_temp envB urlOk
          (clone_repository_temp envA urlOk st00).2).2).fs :=
  ⟨C10_cleanup_frame.1 true ⟨0, ["d"], some "d"⟩ "d" (by decide) (by decide),
   (C10_cleanup_frame.2 envA envB urlOk urlOk st00 (by decide)).2.2 [true, true]⟩

theorem insertDesc_ne_nil (x : FoundApp) (l : List FoundApp) : insertDesc x l ≠ [] := by
  cases l with
  | nil => simp [insertDesc]
  | cons y ys =>
      unfold insertDesc
      split <;> simp

theorem sortedDesc_eq_nil {l : List FoundApp} (h : sortedDesc l = []) : l = [] := by
  cases l with
  | nil => rfl
  | cons x xs =>
      rw [sortedDesc] at h
      exact absurd h (insertDesc_ne_nil x _)

theorem head?_insertDesc (x y : FoundApp) (ys : List FoundApp) :
    (insertDesc x (y :: ys)).head? =
      some (if score_app y > score_app x then y else x) := by
  unfold insertDesc
  split
  · rfl
  · rfl

theorem grm_spec :
    ∀ (l : List FoundApp) (b : FoundApp), get_recommended_app l = some b →
      (∀ a ∈ l, score_app a ≤ score_app b) ∧
      ∃ l₁ l₂, l = l₁ ++ b :: l₂ ∧ ∀ a ∈ l₁, score_app a < score_app b := by
  intro l
  induction l with
  | nil => intro b h; simp [get_recommended_app, sortedDesc] at h
  | cons x xs ih =>
      intro b h
      unfold get_recommended_app at h
      rw [sortedDesc] at h
      cases hs : sortedDesc xs with
      | nil =>
          rw [hs] at h
          have hx : xs = [] := sortedDesc_eq_nil hs
          subst hx
          simp only [insertDesc, List.head?_cons, Option.some.injEq] at h
          subst b
          refine ⟨?_, [], [], by simp, by simp⟩
          intro a ha
          simp only [List.mem_singleton] at ha
          subst ha
          exact le_refl _
      | cons y ys =>
          rw [hs] at h
          rw [head?_insertDesc] at h
          have hy : get_recommended_app xs = some y := by
            unfold get_recommended_app
            rw [hs]
            rfl
          obtain ⟨hmax, l₁, l₂, hdec, hstrict⟩ := ih y hy
          by_cases hgt : score_app y > score_app x
          · rw [if_pos hgt] at h
            simp only [Option.some.injEq] at h
            subst b
            refine ⟨?_, x :: l₁, l₂, by simp [hdec], ?_⟩
            · intro a ha
              rcases List.mem_cons.mp ha with ha | ha
              · subst ha; exact le_of_lt hgt
              · exact hmax a ha
            · intro a ha
              rcases List.mem_cons.mp ha with ha | ha
              · subst ha; exact hgt
              · exact hstrict a ha
          · rw [if_neg hgt] at h
            simp only [Option.some.injEq] at h
            subst b
            have hle : score_app y ≤ score_app x := Nat.le_of_not_lt hgt
            refine ⟨?_, [], xs, by simp, by simp⟩
            intro a ha
            rcases List.mem_cons.mp ha with ha | ha
            · subst ha; exact le_refl _
            · exact le_trans (hmax a ha) hle

/-- Claim C4: `get_recommended_app` returns a candidate of maximal adjusted
score (`score_app` adds +50 for a preferred base name and +20 for a
root-level path), ties broken in favour of the first-encountered candidate
of the walk order (Python's sort is stable under `reverse=True`); in
particular a root-level `main.py` beats any nested candidate of equal base
confidence. -/
theorem C4_pick_best :
    (∀ (l : List FoundApp) (b : FoundApp), get_recommended_app l = some b →
       b ∈ l ∧ (∀ a ∈ l, score_app a ≤ score_app b) ∧
       ∃ l₁ l₂, l = l₁ ++ b :: l₂ ∧ ∀ a ∈ l₁, score_app a < score_app b) ∧
    (∀ l : List FoundApp, l ≠ [] → (get_recommended_app l).isSome = true) ∧
    (∀ a : FoundApp, score_app a = a.confidence +
       (if basenameOf a.file ∈ main_names then 50 else 0) +
       (if ('/' ∈ a.file) || ('\\' ∈ a.file) then 0 else 20)) ∧
    (∀ a₁ a₂ : FoundApp, a₂.file = ("main.py").toList → '/' ∈ a₁.file →
       a₁.confidence = a₂.confidence → get_recommended_app [a₁, a₂] = some a₂) := by
  refine ⟨?_, ?_, fun a => rfl, ?_⟩
  · intro l b h
    obtain ⟨hmax, l₁, l₂, hdec, hstrict⟩ := grm_spec l b h
    exact ⟨by rw [hdec]; simp, hmax, l₁, l₂, hdec, hstrict⟩
  · intro l hl
    cases l with
    | nil => exact absurd rfl hl
    | cons x xs =>
        unfold get_recommended_app
        rw [sortedDesc]
        cases hi : insertDesc x (sortedDesc xs) with
        | nil => exact absurd hi (insertDesc_ne_nil x _)
        | cons z zs => rfl
  · intro a₁ a₂ h2 h1 hconf
    have hb2 : basenameOf a₂.file ∈ main_names := by
      rw [h2]; decide
    have hr2 : (('/' ∈ a₂.file) || ('\\' ∈ a₂.file)) = false := by
      rw [h2]; decide
    have hs2 : score_app a₂ = a₂.confidence + 70 := by
      unfold score_app
      rw [if_pos hb2, hr2]
      simp
    have hr1 : (('/' ∈ a₁.file) || ('\\' ∈ a₁.file)) = true := by
      simp [h1]
    have hs1 : score_app a₁ ≤ a₁.confidence + 50 := by
      unfold score_app
      rw [hr1]
      simp only [eq_self_iff_true, if_true]
      split <;> omega
    have hlt : score_app a₁ < score_app a₂ := by
      rw [hs2, ← hconf]
      omega
    unfold get_recommended_app sortedDesc sortedDesc sortedDesc
    simp only [insertDesc]
    rw [if_pos hlt]
    rfl

theorem C4_witness :
    get_recommended_app
      [⟨("pkg/main.py").toList, [], [], 70⟩, ⟨("main.py").toList, [], [], 70⟩] =
      some ⟨("main.py").toList, [], [], 70⟩ :=
  C4_pick_best.2.2.2 ⟨("pkg/main.py").toList, [], [], 70⟩ ⟨("main.py").toList, [], [], 70⟩
    rfl (by decide) rfl

theorem scan_step_found (acc : ScanAcc) (e : WalkEntry) :
    (scan_step acc e).found_apps = acc.found_apps ++
      (if pyB e && (analyze_python_file e.content).has_fastapi
       then [mkFound e] else []) := by
  unfold scan_step
  cases hp : pyB e with
  | false => simp [hp]
  | true =>
      cases hh : (analyze_python_file e.content).has_fastapi with
      | false =>
          simp only [hp, hh, Bool.and_false, if_false, if_true, Bool.false_eq_true]
          split <;> simp
      | true =>
          simp only [hp, hh, Bool.and_true, if_true, eq_self_iff_true]
          split <;> simp

theorem scan_found (walk : List WalkEntry) :
    ∀ acc : ScanAcc, (walk.foldl scan_step acc).found_apps =
      acc.found_apps ++ appsAll (walk.filter pyB) := by
  induction walk with
  | nil => intro acc; simp [appsAll]
  | cons e es ih =>
      intro acc
      simp only [List.foldl_cons, List.filter_cons]
      cases hp : pyB e with
      | false =>
          rw [ih]
          have hstep := scan_step_found acc e
          rw [hp] at hstep
          simp only [Bool.false_and, if_false] at hstep
          simp only [hstep]
          simp
      | true =>
          rw [ih]
          have hstep := scan_step_found acc e
          rw [hp] at hstep
          simp only [Bool.true_and] at hstep
          simp only [hstep, if_true]
          cases hh : (analyze_python_file e.content).has_fastapi with
          | false => simp [appsAll, hh]
          | true => simp [appsAll, hh]

theorem scan_found_apps_eq (walk : List WalkEntry) :
    (scan_directory_for_fastapi walk).found_apps = appsAll (walk.filter pyB) := by
  unfold scan_directory_for_fastapi
  simpa using scan_found walk ⟨[], [], [], false⟩

/-- Claim C5: scanning a directory whose only source file contains the text
`app = FastAPI()` and a framework import yields exactly one candidate, with
confidence at least 70: 40 from the instance pattern plus at least 30 from
a matching framework-usage pattern. -/
theorem C5_single_candidate (walk : List WalkEntry) (e : WalkEntry) (c : List Char)
    (hw : walk.filter pyB = [e]) (hc : e.content = some c)
    (happ : containsSub (("app = FastAPI()").toList) c = true)
    (himp : import_patterns.any (fun p => searchItems p c) = true) :
    (scan_directory_for_fastapi walk).found_apps.length = 1 ∧
    ∀ a ∈ (scan_directory_for_fastapi walk).found_apps, 70 ≤ a.confidence := by
  have hsearch : searchItems (appPatternItems "app") c = true := by
    obtain ⟨n, t, hnt⟩ := containsSub_decomp _ _ happ
    apply searchItems_of_match_drop _ c n
    rw [hnt]
    exact matchItems_append _ (by decide) _ t (by decide)
  have hanyapp : app_patterns.any (fun p => searchItems p c) = true := by
    simp only [app_patterns, List.any_cons, Bool.or_eq_true]
    exact Or.inl hsearch
  have hhas : (analyze_python_file e.content).has_fastapi = true := by
    rw [hc]
    show (analyzeContent c).has_fastapi = true
    rw [analyzeContent_has, himp]
    rfl
  have hfa : (scan_directory_for_fastapi walk).found_apps = [mkFound e] := by
    rw [scan_found_apps_eq, hw]
    simp [appsAll, hhas]
  constructor
  · rw [hfa]; rfl
  · intro a ha
    rw [hfa] at ha
    simp only [List.mem_singleton] at ha
    subst ha
    have hconf : (mkFound e).confidence = (analyzeContent c).confidence := by
      unfold mkFound
      rw [hc]
      rfl
    rw [hconf, analyzeContent_confidence]
    have h1 : 1 ≤ import_patterns.countP (fun p => searchItems p c) := by
      rw [Nat.succ_le_iff]
      rw [List.countP_pos_iff]
      simp only [List.any_eq_true] at himp
      obtain ⟨p, hp, hsp⟩ := himp
      exact ⟨p, hp, hsp⟩
    have h2 : 1 ≤ app_patterns.countP (fun p => searchItems p c) := by
      rw [Nat.succ_le_iff]
      rw [List.countP_pos_iff]
      simp only [List.any_eq_true] at hanyapp
      obtain ⟨p, hp, hsp⟩ := hanyapp
      exact ⟨p, hp, hsp⟩
    split_ifs <;> omega

theorem C5_witness :
    (scan_directory_for_fastapi [entryC5]).found_apps.length = 1 ∧
    ∀ a ∈ (scan_directory_for_fastapi [entryC5]).found_apps, 70 ≤ a.confidence :=
  C5_single_candidate [entryC5] entryC5
    (("from fastapi import FastAPI\napp = FastAPI()").toList)
    (by decide) rfl (by decide) (by decide)

theorem validate_frame (env : Env) (url : List Char) (st : St) :
    (repo_validate_github_url env url st).2.fs = st.fs ∧
    (repo_validate_github_url env url st).2.tempDir = st.tempDir := by
  unfold repo_validate_github_url
  dsimp only
  split_ifs <;> exact ⟨rfl, rfl⟩

theorem analyze_frame (env : Env) (url : List Char) (st : St) :
    (analyze_repository_structure env url st).2.fs = st.fs ∧
    (analyze_repository_structure env url st).2.tempDir = st.tempDir := by
  unfold analyze_repository_structure
  have hv := validate_frame env url st
  cases hr : repo_validate_github_url env url st with
  | mk vr st1 =>
      rw [hr] at hv
      cases vr with
      | invalid e => exact hv
      | valid o r => split_ifs <;> exact hv

theorem getreq_frame (env : Env) (url : List Char) (st : St) :
    (get_requirements_content env url st).2.fs = st.fs ∧
    (get_requirements_content env url st).2.tempDir = st.tempDir := by
  unfold get_requirements_content
  have hv := validate_frame env url st
  cases hr : repo_validate_github_url env url st with
  | mk vr st1 =>
      rw [hr] at hv
      cases vr with
      | invalid e => exact hv
      | valid o r =>
          split_ifs
          · exact hv
          · cases env.reqContent <;> exact hv
          · exact hv

theorem resolveReq_frame (env : Env) (url : List Char) (custom : Option (List Char))
    (st : St) :
    (resolveRequirements env url custom st).2.fs = st.fs ∧
    (resolveRequirements env url custom st).2.tempDir = st.tempDir := by
  unfold resolveRequirements
  split_ifs
  · exact ⟨rfl, rfl⟩
  · exact getreq_frame env url st

theorem deployInner_frame_ok (env : Env) (url : List Char)
    (custom : Option (List Char)) (st : St) (r : DResult) (st3 : St)
    (h : deployInner env url custom st = .ok (r, st3)) :
    st3.fs = st.fs ∧ st3.tempDir = st.tempDir := by
  unfold deployInner at h
  by_cases h1 : (scan_directory_for_fastapi env.walk).has_fastapi = false
  · rw [if_pos h1] at h
    simp only [Except.ok.injEq, Prod.mk.injEq] at h
    rw [← h.2]
    exact ⟨rfl, rfl⟩
  · rw [if_neg h1] at h
    cases hrec : (match (scan_directory_for_fastapi env.walk).recommended_app with
        | some a => some a
        | none => (scan_directory_for_fastapi env.walk).found_apps.head?) with
    | none => rw [hrec] at h; simp at h
    | some app =>
        rw [hrec] at h
        cases har : env.appRead with
        | none => rw [har] at h; simp at h
        | some content =>
            rw [har] at h
            dsimp only at h
            by_cases hg : env.genOk = false
            · rw [if_pos hg] at h
              simp only [Except.ok.injEq, Prod.mk.injEq] at h
              rw [← h.2]
              exact resolveReq_frame env url custom st
            · rw [if_neg hg] at h
              by_cases he : env.emitRaises = true
              · rw [if_pos he] at h
                simp at h
              · rw [if_neg he] at h
                simp only [Except.ok.injEq, Prod.mk.injEq] at h
                rw [← h.2]
                exact resolveReq_frame env url custom st

theorem deployInner_frame_err (env : Env) (url : List Char)
    (custom : Option (List Char)) (st : St) (st3 : St)
    (h : deployInner env url custom st = .error st3) :
    st3.fs = st.fs ∧ st3.tempDir = st.tempDir := by
  unfold deployInner at h
  by_cases h1 : (scan_directory_for_fastapi env.walk).has_fastapi = false
  · rw [if_pos h1] at h
    simp at h
  · rw [if_neg h1] at h
    cases hrec : (match (scan_directory_for_fastapi env.walk).recommended_app with
        | some a => some a
        | none => (scan_directory_for_fastapi env.walk).found_apps.head?) with
    | none =>
        rw [hrec] at h
        simp only [Except.error.injEq] at h
        rw [← h]
        exact ⟨rfl, rfl⟩
    | some app =>
        rw [hrec] at h
        cases har : env.appRead with
        | none =>
            rw [har] at h
            simp only [Except.error.injEq] at h
            rw [← h]
            exact ⟨rfl, rfl⟩
        | some content =>
            rw [har] at h
            dsimp only at h
            by_cases hg : env.genOk = false
            · rw [if_pos hg] at h
              simp at h
            · rw [if_neg hg] at h
              by_cases he : env.emitRaises = true
              · rw [if_pos he] at h
                simp only [Except.error.injEq] at h
                rw [← h]
                exact resolveReq_frame env url custom st
              · rw [if_neg he] at h
                simp at h

theorem deploy_result_rm (env : Env) (b₁ b₂ : Bool) (url : List Char)
    (custom : Option (List Char)) (st0 : St) :
    (deploy_repository env b₁ url custom st0).result =
      (deploy_repository env b₂ url custom st0).result := by
  unfold deploy_repository
  cases (analyze_repository_structure env url st0).1 with
  | invalid e => rfl
  | valid o r =>
      cases (clone_repository_temp env url
          (analyze_repository_structure env url st0).2).1 with
      | failure m => rfl
      | success d =>
          cases deployInner env url custom
              (clone_repository_temp env url
                (analyze_repository_structure env url st0).2).2 with
          | ok p =>
              obtain ⟨r2, st3⟩ := p
              rfl
          | error st3 => rfl

theorem erase_append_self (a : String) (l : List String) (h : a ∉ l) :
    (l ++ [a]).erase a = l := by
  induction l with
  | nil => simp
  | cons b bs ih =>
      simp only [List.mem_cons, not_or] at h
      simp only [List.cons_append, List.erase_cons]
      rw [if_neg (fun hb => h.1 (eq_of_beq hb).symm)]
      rw [ih h.2]

theorem cleanup_removes (st3 : St) (t : String) (l : List String)
    (htd : st3.tempDir = some t) (hfs : st3.fs = l ++ [t]) (hl : t ∉ l) :
    (cleanup_temp_directory true st3).fs = l ∧
      (cleanup_temp_directory true st3).tempDir = none := by
  unfold cleanup_temp_directory
  split
  · rename_i heq
    rw [htd] at heq
    exact absurd heq (by simp)
  · rename_i d heq
    rw [htd] at heq
    obtain rfl : d = t := (Option.some.inj heq).symm
    have hmem : d ∈ st3.fs := by rw [hfs]; simp
    rw [if_pos hmem, if_pos rfl]
    constructor
    · show st3.fs.erase d = l
      rw [hfs]
      exact erase_append_self d l hl
    · rfl

theorem cleanup_noop (rmOk : Bool) (st : St) (h : st.tempDir = none) :
    cleanup_temp_directory rmOk st = st := by
  unfold cleanup_temp_directory
  split
  · rfl
  · rename_i d heq
    rw [h] at heq
    exact absurd heq (by simp)

/-- Claim C1: whenever the pipeline obtains a temporary workspace (the clone
succeeds), the workspace directory no longer exists after the pipeline
returns — on the success path, the detection-failure path and the path where
a later stage raises — provided the operating-system delete succeeds
(`rmOk = true`; the code's cleanup is explicitly best-effort); and the
pipeline's result is completely independent of whether cleanup's removal
succeeds or fails. -/
theorem C1_workspace_cleanup (env : Env) (rmOk : Bool) (url : List Char)
    (custom : Option (List Char)) (st0 : St)
    (hfresh : env.tempName ∉ st0.fs)
    (hgot : (deploy_repository env rmOk url custom st0).gotWorkspace = true) :
    (rmOk = true → env.tempName ∉ (deploy_repository env rmOk url custom st0).st.fs) ∧
    (∀ b₁ b₂ : Bool, (deploy_repository env b₁ url custom st0).result =
        (deploy_repository env b₂ url custom st0).result) := by
  refine ⟨?_, fun b₁ b₂ => deploy_result_rm env b₁ b₂ url custom st0⟩
  intro hrm
  subst hrm
  unfold deploy_repository at hgot ⊢
  have hA := analyze_frame env url st0
  cases hv : (analyze_repository_structure env url st0).1 with
  | invalid e =>
      rw [hv] at hgot
      simp at hgot
  | valid o r =>
      dsimp only
      have hC := clone_st env url (analyze_repository_structure env url st0).2
      cases hcl : (clone_repository_temp env url
          (analyze_repository_structure env url st0).2).1 with
      | failure m =>
          rw [hv] at hgot
          dsimp only at hgot
          rw [hcl] at hgot
          simp at hgot
      | success d =>
          dsimp only
          have hfs2 : (clone_repository_temp env url
              (analyze_repository_structure env url st0).2).2.fs =
              st0.fs ++ [env.tempName] := by
            rw [hC]
            dsimp only
            rw [hA.1]
          have htd2 : (clone_repository_temp env url
              (analyze_repository_structure env url st0).2).2.tempDir =
              some env.tempName := by
            rw [hC]
          cases hI : deployInner env url custom
              (clone_repository_temp env url
                (analyze_repository_structure env url st0).2).2 with
          | ok p =>
              obtain ⟨r2, st3⟩ := p
              dsimp only
              have hfr := deployInner_frame_ok env url custom _ r2 st3 hI
              have hrem := cleanup_removes st3 env.tempName st0.fs
                (by rw [hfr.2]; exact htd2) (by rw [hfr.1]; exact hfs2) hfresh
              rw [hrem.1]
              exact hfresh
          | error st3 =>
              dsimp only
              have hfr := deployInner_frame_err env url custom _ st3 hI
              have hrem := cleanup_removes st3 env.tempName st0.fs
                (by rw [hfr.2]; exact htd2) (by rw [hfr.1]; exact hfs2) hfresh
              rw [cleanup_noop true _ hrem.2, hrem.1]
              exact hfresh

theorem C1_witness :
    (envDemo.tempName ∉ (deploy_repository envDemo true urlOk none st00).st.fs) ∧
    ((deploy_repository envDemo true urlOk none st00).result =
      (deploy_repository envDemo false urlOk none st00).result) :=
  ⟨(C1_workspace_cleanup envDemo true urlOk none st00 (by decide) (by decide)).1 rfl,
   (C1_workspace_cleanup envDemo true urlOk none st00 (by decide) (by decide)).2 true false⟩

end FBH
